import Mathlib

/-!
Verification of the equity enrichment pipeline
(src/equity_pipeline/src/equity_pipeline): a shallow embedding of the
retry wrapper, the enricher contract, the database gateway and the
orchestrator, together with theorems settling the spec claims.

Python dictionaries are modelled as ordered association lists over a
small inductive value type; Python exceptions are modelled with
`Except`; external providers, the database and wall-clock time are
modelled as explicit oracle parameters.
-/

namespace EquityPipeline

/-- A Python value as it appears in the pipeline's dictionaries:
`None`, a string, an integer, or a list of values.  (The pipeline never
branches on float-specific behaviour, so numbers are modelled as
integers.) -/
inductive Val where
  | vnull : Val
  | vstr : String → Val
  | vint : Int → Val
  | vlist : List Val → Val

/-- Python truthiness of a `Val`: `None`, `""`, `0` and `[]` are falsy. -/
def truthy : Val → Bool
  | Val.vnull => false
  | Val.vstr s => !s.isEmpty
  | Val.vint n => n != 0
  | Val.vlist l => !l.isEmpty

/-- A Python dict: an insertion-ordered association list from field
names to values. -/
abbrev Dict := List (String × Val)

/-- `d.get(k)` / `k in d`: the value at the first occurrence of key
`k`, if any. -/
def getVal : Dict → String → Option Val
  | [], _ => none
  | p :: rest, k => if p.1 = k then some p.2 else getVal rest k

/-- The keys of a dict, in order. -/
def dictKeys (d : Dict) : List String := d.map Prod.fst

/-- `d[k] = v`: replace the value at an existing key in place, else
append the new binding at the end (CPython dict semantics). -/
def setVal (d : Dict) (k : String) (v : Val) : Dict :=
  if k ∈ dictKeys d then
    d.map (fun p => if p.1 = k then (k, v) else p)
  else d ++ [(k, v)]

/-- `d.update(e)`: fold `e`'s bindings into `d` in order, overwriting
on key collision. -/
def dictUpdate (d e : Dict) : Dict :=
  e.foldl (fun acc p => setVal acc p.1 p.2) d

-- ===========================================================================
-- Database gateway (database.py, DatabaseManager)
-- ===========================================================================

/--
`fetch_companies(limit)`: the query is limited only under
`if limit:` — Python truthiness, so both `None` and `0` leave the
query unlimited and every row of the company table is returned. -/
def fetch_companies (rows : List Dict) (limit : Option Nat) : List Dict :=
  match limit with
  | none => rows
  | some n => if n ≠ 0 then rows.take n else rows

/-- `update_company(ticker, updates)`: performs one row update against
the store (modelled by the oracle `db`, mapping the ticker and payload
of a call to its outcome); on failure it logs an error and re-raises
the same exception. -/
def update_company (db : Val → Dict → Except String Unit) (ticker : Val)
    (updates : Dict) : Except String Unit :=
  db ticker updates

/-- `batch_update_companies(updates)`: iterates the updates in order;
an update without a `Ticker` key is skipped silently, every other
update is passed to `update_company`.  There is no per-item
exception handler, so the first failing update propagates out of the
loop.  Returns the list of `(ticker, payload)` update calls actually
attempted together with the final outcome. -/
def batch_update_companies (db : Val → Dict → Except String Unit) :
    List Dict → List (Val × Dict) × Except String Unit
  | [] => ([], Except.ok ())
  | u :: rest =>
    match getVal u "Ticker" with
    | none => batch_update_companies db rest
    | some t =>
      match update_company db t u with
      | Except.error e => ([(t, u)], Except.error e)
      | Except.ok _ =>
        let res := batch_update_companies db rest
        ((t, u) :: res.1, res.2)

/-- `create_enrichment_log(entry)`: the insert is wrapped in a bare
`except:` that degrades to a logged warning, so the call never raises;
the oracle `ins` tells whether the insert itself succeeded. -/
def create_enrichment_log (ins : Dict → Except String Unit) (entry : Dict) :
    Except String Unit :=
  match ins entry with
  | Except.ok _ => Except.ok ()
  | Except.error _ => Except.ok ()

-- ===========================================================================
-- Enricher contract (enrichers/base.py, BaseEnricher.validate_input)
-- ===========================================================================

/-- `validate_input(company)`: `'Ticker' in company and company['Ticker']` —
the company is eligible only if it carries a `Ticker` key whose value
is truthy (in particular a non-empty string). -/
def validate_input (company : Dict) : Bool :=
  match getVal company "Ticker" with
  | none => false
  | some v => truthy v

-- ===========================================================================
-- Retry wrapper (enrichers/base.py, retry_on_failure)
-- ===========================================================================

/-- Observable outcome of one wrapped call: the value returned or the
exception finally re-raised, the number of warning-level log events,
the number of error-level log events, and the number of attempts that
were actually executed. -/
structure RetryResult (ε α : Type) where
  result : Except ε α
  warnings : Nat
  errors : Nat
  attempts : Nat

/-- The `for attempt in range(max_retries + 1)` loop of
`retry_on_failure`, with `remaining` retries still allowed after the
current `attempt`.  A success returns immediately; a failure with
retries remaining logs a warning (the `time.sleep(delay * (attempt + 1))`
backoff has no observable effect in this model); a failure on the last
attempt logs an error, and the last exception is re-raised. -/
def retryGo (op : Nat → Except ε α) (attempt : Nat) : Nat → RetryResult ε α
  | 0 =>
    match op attempt with
    | Except.ok a => ⟨Except.ok a, 0, 0, 1⟩
    | Except.error e => ⟨Except.error e, 0, 1, 1⟩
  | r + 1 =>
    match op attempt with
    | Except.ok a => ⟨Except.ok a, 0, 0, 1⟩
    | Except.error _ =>
      let t := retryGo op (attempt + 1) r
      ⟨t.result, t.warnings + 1, t.errors, t.attempts + 1⟩

/-- `retry_on_failure(max_retries, delay)` applied to a fallible
operation `op`, where `op i` is the outcome of the `i`-th (0-based)
attempt. -/
def retry_on_failure (max_retries : Nat) (op : Nat → Except ε α) : RetryResult ε α :=
  retryGo op 0 max_retries

-- ===========================================================================
-- Orchestrator (main.py, EnrichmentPipeline)
-- ===========================================================================

/-- An enabled enricher as seen by the orchestrator: its `name`
attribute and its (retry-wrapped) `enrich` method, which either
returns a result dict or lets the exception of the final attempt
escape after the enricher's internal retries are exhausted. -/
structure Enricher where
  name : String
  enrich : Dict → Except String Dict

/-- A warning event logged by `_enrich_company`: the enricher's name,
the value of `company.get('Ticker')` (`none` when the key is absent),
and the error text. -/
structure EnricherWarning where
  enricher : String
  ticker : Option Val
  message : String

/-- One iteration of the `for enricher in self.enrichers` loop in
`_enrich_company`: a successful result is merged with
`enriched_data.update(result)`; a raising enricher is caught and
logged as a warning, and the loop continues. -/
def enrichStep (company : Dict) (acc : Dict × List EnricherWarning)
    (enr : Enricher) : Dict × List EnricherWarning :=
  match enr.enrich company with
  | Except.ok result => (dictUpdate acc.1 result, acc.2)
  | Except.error e =>
    (acc.1, acc.2 ++ [⟨enr.name, getVal company "Ticker", e⟩])

/-- `_enrich_company(company)`: fold every enabled enricher, in the
fixed enabled order, into one aggregate dict, collecting the warnings
of failed enrichers. -/
def enrich_company (enrichers : List Enricher) (company : Dict) :
    Dict × List EnricherWarning :=
  enrichers.foldl (enrichStep company) ([], [])

/-- The orchestrator's observable state during `run`: the in-memory
results buffer, the payload and outcome (`true` = succeeded) of every
`batch_update_companies` call made so far, the number of flush
failures logged by `_save_buffer`, the warnings logged by
`_enrich_company`, and `processed_count`. -/
structure RunState where
  buffer : List Dict
  batchCalls : List (List Dict × Bool)
  flushErrors : Nat
  warnings : List EnricherWarning
  processed : Nat

/-- The pipeline state at the start of `run`. -/
def initState : RunState := ⟨[], [], 0, [], 0⟩

/-- `_save_buffer()`: a no-op on an empty buffer; otherwise one
`batch_update_companies` call carrying the whole buffer (`dbOk n` is
the outcome of the `n`-th batch call of the run).  Only on success is
the buffer cleared; when the call raises, the handler logs the error
and leaves the buffer as it is. -/
def save_buffer (dbOk : Nat → Bool) (s : RunState) : RunState :=
  if s.buffer.isEmpty then s
  else if dbOk s.batchCalls.length then
    { s with batchCalls := s.batchCalls ++ [(s.buffer, true)], buffer := [] }
  else
    { s with batchCalls := s.batchCalls ++ [(s.buffer, false)],
             flushErrors := s.flushErrors + 1 }

/-- One iteration of the `for idx, company in enumerate(companies)`
loop of `run`: run all enrichers; if the aggregate is non-empty,
attach `Ticker` (defaulting to `'Unknown'`) and `last_enriched` (the
wall clock is modelled by the `now` parameter) and append it to the
buffer; flush once the buffer has reached `save_frequency`; then bump
`processed_count`.  Nothing inside the `try` block re-raises
(`_enrich_company` catches enricher failures and `_save_buffer`
catches flush failures), so the per-company `except` branch of the
source is unreachable in this model. -/
def process_company (enrichers : List Enricher) (save_frequency : Nat)
    (dbOk : Nat → Bool) (now : Val) (s : RunState) (company : Dict) : RunState :=
  let ticker := (getVal company "Ticker").getD (Val.vstr "Unknown")
  let step := enrich_company enrichers company
  let s1 : RunState := { s with warnings := s.warnings ++ step.2 }
  let s2 : RunState :=
    if step.1.isEmpty then s1
    else { s1 with buffer :=
      s1.buffer ++ [setVal (setVal step.1 "Ticker" ticker) "last_enriched" now] }
  let s3 := if save_frequency ≤ s2.buffer.length then save_buffer dbOk s2 else s2
  { s3 with processed := s3.processed + 1 }

/-- The company loop of `run`, starting from pipeline state `s`. -/
def runLoop (enrichers : List Enricher) (save_frequency : Nat)
    (dbOk : Nat → Bool) (now : Val) : RunState → List Dict → RunState
  | s, [] => s
  | s, c :: rest =>
    runLoop enrichers save_frequency dbOk now
      (process_company enrichers save_frequency dbOk now s c) rest

/-- `run(limit)` after the fetch: loop over the fetched companies,
then flush any remaining buffered results (`if self.results_buffer:
self._save_buffer()`).  The final log line reports
`processed_count/total` out of this state. -/
def run (enrichers : List Enricher) (save_frequency : Nat)
    (dbOk : Nat → Bool) (now : Val) (companies : List Dict) : RunState :=
  let s := runLoop enrichers save_frequency dbOk now initState companies
  if s.buffer.isEmpty then s else save_buffer dbOk s

/-- `run(limit)` including the initial `fetch_companies` call on the
company table `rows`. -/
def run_with_limit (enrichers : List Enricher) (save_frequency : Nat)
    (dbOk : Nat → Bool) (now : Val) (rows : List Dict) (limit : Option Nat) :
    RunState :=
  run enrichers save_frequency dbOk now (fetch_companies rows limit)

-- ===========================================================================
-- Enricher implementations (enrichers/*.py)
-- ===========================================================================

/-- `v is not None`, the cleaning filter used on enricher results. -/
def notNull : Val → Bool
  | Val.vnull => false
  | _ => true

/-- Python `a or b` on field values: `a` when truthy, else `b`. -/
def pyOr (a b : Val) : Val := if truthy a then a else b

/-- Python `len(v)`: defined on lists and strings, a `TypeError` on
anything else (in particular on `None`). -/
def pyLen : Val → Except String Nat
  | Val.vlist l => Except.ok l.length
  | Val.vstr s => Except.ok s.length
  | _ => Except.error "TypeError: object has no len()"

/-- What `YahooFinanceEnricher.enrich` observes from its provider on a
successful session: `stock.info` as a total lookup (`info.get(k)` is
`None` for a missing key) and the result of
`_calculate_avg_volume_value` (which swallows its own errors and
yields `None` on failure). -/
structure YahooData where
  info : String → Val
  avgValTraded : Val

/-- `YahooFinanceEnricher.enrich`: ineligible input returns `{}`
without touching the provider; a provider failure is logged and
re-raised; otherwise the six extracted fields are cleaned of `None`
values before returning.  The `Nat` component counts the provider
calls made (`stock.info`, and `stock.history` inside
`_calculate_avg_volume_value`). -/
def yahoo_enrich (provider : Except String YahooData) (company : Dict) :
    Except String (Dict × Nat) :=
  if !validate_input company then Except.ok ([], 0)
  else
    match provider with
    | Except.error e => Except.error e
    | Except.ok data =>
      let enriched : Dict :=
        [("Market Cap", data.info "marketCap"),
         ("EV", data.info "enterpriseValue"),
         ("Avg D Val Traded 3M", data.avgValTraded),
         ("GICS Sector", data.info "sector"),
         ("GICS Ind Grp Name", data.info "industry"),
         ("Cntry Tertry Of Dom", data.info "country")]
      Except.ok (enriched.filter (fun p => notNull p.2), 2)

/-- What `SECFilingsEnricher.enrich` observes from EDGAR: whether
`Company(ticker)` came back non-`None`, the company's `cik` and
`name`, and the lookback-filtered filings after `_process_filings`. -/
structure EdgarData where
  found : Bool
  cik : Val
  companyName : Val
  filingsData : List Dict

/-- `_get_latest_filing_url(filings, form_type)`: the first filing of
the given form type (the list is already sorted most-recent-first by
`_process_filings`), returning `document_url or filing_url` for it;
`None` when no filing of that type exists. -/
def get_latest_filing_url : List Dict → String → Val
  | [], _ => Val.vnull
  | f :: rest, form_type =>
    match getVal f "form_type" with
    | some (Val.vstr s) =>
      if s = form_type then
        pyOr ((getVal f "document_url").getD Val.vnull)
          ((getVal f "filing_url").getD Val.vnull)
      else get_latest_filing_url rest form_type
    | _ => get_latest_filing_url rest form_type

/-- `SECFilingsEnricher.enrich`: ineligible input returns `{}` without
touching EDGAR; a ticker not found in EDGAR returns `{}` after one
provider call; a provider failure is logged and re-raised; otherwise
the enriched dict is returned exactly as built — unlike the other
enrichers there is no `None`-cleaning step, so `None` values (e.g.
a missing latest-10-K URL) remain in the returned mapping.  The
summary dict built by `_create_filings_summary` and the wall clock
are opaque to every claim and enter as the `summary` and `now`
parameters; `_store_detailed_filings` only writes to a side table and
swallows its own errors.  Provider calls counted: `Company(ticker)`
and `get_filings`. -/
def sec_enrich (provider : Except String EdgarData) (summary now : Val)
    (company : Dict) : Except String (Dict × Nat) :=
  if !validate_input company then Except.ok ([], 0)
  else
    match provider with
    | Except.error e => Except.error e
    | Except.ok data =>
      if !data.found then Except.ok ([], 1)
      else
        Except.ok (
          [("sec_cik", data.cik),
           ("sec_company_name", data.companyName),
           ("sec_filings_count", Val.vint data.filingsData.length),
           ("sec_latest_10k", get_latest_filing_url data.filingsData "10-K"),
           ("sec_latest_10q", get_latest_filing_url data.filingsData "10-Q"),
           ("sec_latest_8k", get_latest_filing_url data.filingsData "8-K"),
           ("sec_latest_proxy", get_latest_filing_url data.filingsData "DEF 14A"),
           ("sec_filings_summary", summary),
           ("sec_last_updated", now)], 2)

/-- `LLMInvestorInformationEnricher.enrich`: ineligible input returns
`{}` without calling the model; a `generate_content` failure is
re-raised; an unparseable (`none`) or empty parsed payload returns
`{}` after the one provider call; a non-empty parsed payload `inv` is
mapped to the `llm_*` fields — the presentation count via Python
`len` on `inv.get('corporate_presentation_urls', [])`, which raises
`TypeError` on a present non-list, non-string value — and `None`
values are cleaned before returning. -/
def llm_enrich (provider : Except String (Option Dict)) (now : Val)
    (company : Dict) : Except String (Dict × Nat) :=
  if !validate_input company then Except.ok ([], 0)
  else
    match provider with
    | Except.error e => Except.error e
    | Except.ok none => Except.ok ([], 1)
    | Except.ok (some inv) =>
      if inv.isEmpty then Except.ok ([], 1)
      else
        match (match getVal inv "corporate_presentation_urls" with
          | none => Except.ok 0
          | some v => pyLen v) with
        | Except.error e => Except.error e
        | Except.ok cnt =>
          let enriched : Dict :=
            [("llm_primary_website",
               (getVal inv "primary_website").getD Val.vnull),
             ("llm_investor_section_url",
               (getVal inv "investor_section_url").getD Val.vnull),
             ("llm_corporate_presentations",
               (getVal inv "corporate_presentation_urls").getD Val.vnull),
             ("llm_presentations_count", Val.vint cnt),
             ("llm_enrichment_model", Val.vstr "gemini-2.5-flash"),
             ("llm_last_updated", now)]
          Except.ok (enriched.filter (fun p => notNull p.2), 1)

/-- `ISINEnricher.enrich`: validates input, then the placeholder body
returns `{}` without any provider call. -/
def isin_enrich (company : Dict) : Except String (Dict × Nat) :=
  if !validate_input company then Except.ok ([], 0)
  else Except.ok ([], 0)

/-- `SectorClassificationEnricher.enrich`: validates input, then the
placeholder body returns `{}` without any provider call. -/
def sector_classification_enrich (company : Dict) :
    Except String (Dict × Nat) :=
  if !validate_input company then Except.ok ([], 0)
  else Except.ok ([], 0)

-- ===========================================================================
-- Concrete fixtures used by witnesses and counterexamples
-- ===========================================================================

/-- An enricher that always succeeds with result `{'x': 1}` (the
example enricher of the spec's end-to-end property). -/
def constEnricher : Enricher :=
  ⟨"ConstEnricher", fun _ => Except.ok [("x", Val.vint 1)]⟩

/-- An enricher that always succeeds with result `{'x': 2}`. -/
def constEnricher2 : Enricher :=
  ⟨"ConstEnricher2", fun _ => Except.ok [("x", Val.vint 2)]⟩

/-- An enricher configured to always raise. -/
def failEnricher : Enricher :=
  ⟨"FailEnricher", fun _ => Except.error "provider down"⟩

/-- A company row with ticker AAPL. -/
def companyA : Dict := [("Ticker", Val.vstr "AAPL")]

/-- A company row with ticker MSFT. -/
def companyB : Dict := [("Ticker", Val.vstr "MSFT")]

/-- A company row with an empty ticker value. -/
def companyEmptyTicker : Dict := [("Ticker", Val.vstr "")]

/-- A database oracle whose row update fails exactly for ticker "A". -/
def dbFailOnA : Val → Dict → Except String Unit :=
  fun t _ =>
    match t with
    | Val.vstr s => if s = "A" then Except.error "db down" else Except.ok ()
    | _ => Except.ok ()

/-- A buffered update for ticker "A". -/
def updateA : Dict := [("Ticker", Val.vstr "A"), ("x", Val.vint 1)]

/-- A buffered update for ticker "B". -/
def updateB : Dict := [("Ticker", Val.vstr "B"), ("x", Val.vint 2)]

/-- A batch-call oracle for which the first `batch_update_companies`
call of the run raises and every later one succeeds. -/
def dbFailFirst : Nat → Bool := fun n => n != 0

/-- The buffered entry produced for `companyA` by `constEnricher`
at wall-clock value `"t"`. -/
def entryA : Dict :=
  [("x", Val.vint 1), ("Ticker", Val.vstr "AAPL"), ("last_enriched", Val.vstr "t")]

/-- The buffered entry produced for `companyB` by `constEnricher`
at wall-clock value `"t"`. -/
def entryB : Dict :=
  [("x", Val.vint 1), ("Ticker", Val.vstr "MSFT"), ("last_enriched", Val.vstr "t")]

/-- An EDGAR observation: company found, with no filings in the
lookback window. -/
def edgarApple : EdgarData :=
  ⟨true, Val.vint 320193, Val.vstr "Apple Inc.", []⟩

/-- The mapping `SECFilingsEnricher.enrich` returns for `edgarApple`:
the four latest-filing URLs are `None` and are not cleaned away. -/
def secNullDict : Dict :=
  [("sec_cik", Val.vint 320193),
   ("sec_company_name", Val.vstr "Apple Inc."),
   ("sec_filings_count", Val.vint 0),
   ("sec_latest_10k", Val.vnull),
   ("sec_latest_10q", Val.vnull),
   ("sec_latest_8k", Val.vnull),
   ("sec_latest_proxy", Val.vnull),
   ("sec_filings_summary", Val.vstr "sum"),
   ("sec_last_updated", Val.vstr "t")]

/-- A Yahoo observation where only the market cap is present. -/
def yahooDataApple : YahooData :=
  ⟨fun k => if k = "marketCap" then Val.vint 5 else Val.vnull, Val.vnull⟩

-- ===========================================================================
-- Theorems
-- ===========================================================================

theorem getVal_append_of_not_mem :
    ∀ (d : Dict) (k : String), k ∉ dictKeys d →
      ∀ e : Dict, getVal (d ++ e) k = getVal e k := by
  intro d
  induction d with
  | nil => intro k _ e; rfl
  | cons p rest ih =>
    intro k h e
    simp only [dictKeys, List.map_cons, List.mem_cons, not_or] at h
    rw [List.cons_append]
    show (if p.1 = k then some p.2 else getVal (rest ++ e) k) = getVal e k
    have h1 : ¬ p.1 = k := Ne.symm h.1
    rw [if_neg h1]
    exact ih k h.2 e

theorem getVal_map_replace (k : String) (v : Val) :
    ∀ d : Dict, k ∈ dictKeys d →
      getVal (d.map fun p => if p.1 = k then (k, v) else p) k = some v := by
  intro d
  induction d with
  | nil => intro h; simp [dictKeys] at h
  | cons p rest ih =>
    intro h
    by_cases hp : p.1 = k
    · simp only [List.map_cons, if_pos hp]
      show (if k = k then some v
        else getVal (rest.map fun p => if p.1 = k then (k, v) else p) k) = some v
      rw [if_pos rfl]
    · have h2 : k ∈ dictKeys rest := by
        simp only [dictKeys, List.map_cons, List.mem_cons] at h
        rcases h with h | h
        · exact absurd h.symm hp
        · exact h
      simp only [List.map_cons, if_neg hp]
      show (if p.1 = k then some p.2
        else getVal (rest.map fun p => if p.1 = k then (k, v) else p) k) = some v
      rw [if_neg hp]
      exact ih h2

theorem getVal_map_other (k k2 : String) (v : Val) (hne : ¬ k = k2) :
    ∀ d : Dict,
      getVal (d.map fun p => if p.1 = k2 then (k2, v) else p) k = getVal d k := by
  intro d
  induction d with
  | nil => rfl
  | cons p rest ih =>
    by_cases hp : p.1 = k2
    · simp only [List.map_cons, if_pos hp]
      show (if k2 = k then some v
          else getVal (rest.map fun p => if p.1 = k2 then (k2, v) else p) k) =
        if p.1 = k then some p.2 else getVal rest k
      have hk2 : ¬ k2 = k := fun hx => hne hx.symm
      have hpk : ¬ p.1 = k := by rw [hp]; exact hk2
      rw [if_neg hk2, if_neg hpk]
      exact ih
    · simp only [List.map_cons, if_neg hp]
      show (if p.1 = k then some p.2
          else getVal (rest.map fun p => if p.1 = k2 then (k2, v) else p) k) =
        if p.1 = k then some p.2 else getVal rest k
      by_cases hk : p.1 = k
      · rw [if_pos hk, if_pos hk]
      · rw [if_neg hk, if_neg hk]
        exact ih

theorem getVal_append_single_ne (k k2 : String) (v : Val) (hne : ¬ k = k2) :
    ∀ d : Dict, getVal (d ++ [(k2, v)]) k = getVal d k := by
  intro d
  induction d with
  | nil =>
    show (if k2 = k then some v else none) = none
    rw [if_neg (fun hx => hne hx.symm : ¬ k2 = k)]
  | cons p rest ih =>
    rw [List.cons_append]
    show (if p.1 = k then some p.2 else getVal (rest ++ [(k2, v)]) k) =
      if p.1 = k then some p.2 else getVal rest k
    by_cases hk : p.1 = k
    · rw [if_pos hk, if_pos hk]
    · rw [if_neg hk, if_neg hk]
      exact ih

theorem getVal_setVal_self (d : Dict) (k : String) (v : Val) :
    getVal (setVal d k v) k = some v := by
  unfold setVal
  by_cases h : k ∈ dictKeys d
  · rw [if_pos h]
    exact getVal_map_replace k v d h
  · rw [if_neg h, getVal_append_of_not_mem d k h [(k, v)]]
    show (if k = k then some v else none) = some v
    rw [if_pos rfl]

theorem getVal_setVal_ne (d : Dict) (k k2 : String) (v : Val) (hne : ¬ k = k2) :
    getVal (setVal d k2 v) k = getVal d k := by
  unfold setVal
  by_cases h : k2 ∈ dictKeys d
  · rw [if_pos h]
    exact getVal_map_other k k2 v hne d
  · rw [if_neg h]
    exact getVal_append_single_ne k k2 v hne d

theorem getVal_dictUpdate_of_not_mem :
    ∀ (e : Dict) (k : String), k ∉ dictKeys e →
      ∀ d : Dict, getVal (dictUpdate d e) k = getVal d k := by
  intro e
  induction e with
  | nil => intro k _ d; rfl
  | cons p rest ih =>
    intro k h d
    simp only [dictKeys, List.map_cons, List.mem_cons, not_or] at h
    show getVal (dictUpdate (setVal d p.1 p.2) rest) k = getVal d k
    rw [ih k h.2 (setVal d p.1 p.2)]
    exact getVal_setVal_ne d k p.1 p.2 h.1

theorem getVal_dictUpdate_of_mem :
    ∀ (e : Dict) (k : String), (dictKeys e).Nodup → k ∈ dictKeys e →
      ∀ d : Dict, getVal (dictUpdate d e) k = getVal e k := by
  intro e
  induction e with
  | nil => intro k _ h; simp [dictKeys] at h
  | cons p rest ih =>
    intro k hnd h d
    simp only [dictKeys, List.map_cons, List.nodup_cons] at hnd
    show getVal (dictUpdate (setVal d p.1 p.2) rest) k = getVal (p :: rest) k
    by_cases hp : k = p.1
    · have hnr : k ∉ dictKeys rest := by rw [hp]; exact hnd.1
      rw [getVal_dictUpdate_of_not_mem rest k hnr (setVal d p.1 p.2), hp,
        getVal_setVal_self]
      show some p.2 = if p.1 = p.1 then some p.2 else getVal rest p.1
      rw [if_pos rfl]
    · have h2 : k ∈ dictKeys rest := by
        simp only [dictKeys, List.map_cons, List.mem_cons] at h
        rcases h with h | h
        · exact absurd h hp
        · exact h
      rw [ih k hnd.2 h2 (setVal d p.1 p.2)]
      show getVal rest k = if p.1 = k then some p.2 else getVal rest k
      rw [if_neg (fun hx => hp hx.symm : ¬ p.1 = k)]

theorem retryGo_succeeds {ε α : Type} (op : Nat → Except ε α) (a : α) :
    ∀ (k r attempt : Nat), k ≤ r →
      (∀ i, i < k → ∃ e, op (attempt + i) = Except.error e) →
      op (attempt + k) = Except.ok a →
      retryGo op attempt r = ⟨Except.ok a, k, 0, k + 1⟩ := by
  intro k
  induction k with
  | zero =>
    intro r attempt _ _ hsucc
    cases r with
    | zero => simp only [retryGo]; rw [Nat.add_zero] at hsucc; rw [hsucc]
    | succ r => simp only [retryGo]; rw [Nat.add_zero] at hsucc; rw [hsucc]
  | succ k ih =>
    intro r attempt hkr hfail hsucc
    cases r with
    | zero => omega
    | succ r =>
      obtain ⟨e, he⟩ := hfail 0 (Nat.succ_pos k)
      rw [Nat.add_zero] at he
      simp only [retryGo, he]
      rw [ih r (attempt + 1) (Nat.succ_le_succ_iff.mp hkr)
        (fun i hi => by
          obtain ⟨e2, he2⟩ := hfail (i + 1) (Nat.succ_lt_succ hi)
          refine ⟨e2, ?_⟩
          have hx : attempt + 1 + i = attempt + (i + 1) := by ring
          rw [hx]; exact he2)
        (by
          have hx : attempt + 1 + k = attempt + (k + 1) := by ring
          rw [hx]; exact hsucc)]

theorem retryGo_all_fail {ε α : Type} (op : Nat → Except ε α) (es : Nat → ε) :
    ∀ (r attempt : Nat),
      (∀ i, i ≤ r → op (attempt + i) = Except.error (es (attempt + i))) →
      retryGo op attempt r = ⟨Except.error (es (attempt + r)), r, 1, r + 1⟩ := by
  intro r
  induction r with
  | zero =>
    intro attempt hfail
    have h := hfail 0 (Nat.le_refl 0)
    rw [Nat.add_zero] at h ⊢
    simp only [retryGo, h]
  | succ r ih =>
    intro attempt hfail
    have h0 := hfail 0 (Nat.zero_le _)
    rw [Nat.add_zero] at h0
    simp only [retryGo, h0]
    rw [ih (attempt + 1)
      (fun i hi => by
        have h := hfail (i + 1) (Nat.succ_le_succ hi)
        have hx : attempt + 1 + i = attempt + (i + 1) := by ring
        rw [hx]; exact h)]
    have : attempt + 1 + r = attempt + (r + 1) := by ring
    rw [this]

/-- C1: the retry wrapper with maximum retry count `R`.  An operation
that fails on attempts `0..k-1` (with `k ≤ R`) and succeeds on attempt
`k` returns the success value, records exactly `k` warning events and
zero error events, and executes only `k + 1` attempts (a successful
attempt short-circuits).  An operation that fails on all `R + 1`
attempts re-raises the failure of the last attempt and records `R`
warning events and one error event. -/
theorem retry_wrapper_spec {ε α : Type} (R : Nat) (op : Nat → Except ε α) :
    (∀ (k : Nat) (a : α), k ≤ R →
      (∀ i, i < k → ∃ e, op i = Except.error e) →
      op k = Except.ok a →
      retry_on_failure R op = ⟨Except.ok a, k, 0, k + 1⟩) ∧
    (∀ es : Nat → ε, (∀ i, i ≤ R → op i = Except.error (es i)) →
      retry_on_failure R op = ⟨Except.error (es R), R, 1, R + 1⟩) := by
  constructor
  · intro k a hk hfail hsucc
    exact retryGo_succeeds op a k R 0 hk
      (fun i hi => by simpa using hfail i hi) (by simpa using hsucc)
  · intro es hfail
    have := retryGo_all_fail op es R 0 (fun i hi => by simpa using hfail i hi)
    simpa using this

/-- Witness for C1: with `R = 2`, an operation failing once then
succeeding yields the value with one warning; an always-failing
operation yields the last error with two warnings and one error. -/
theorem retry_wrapper_spec_witness :
    retry_on_failure 2 (fun i => if i < 1 then Except.error "boom" else Except.ok 42) =
      ⟨Except.ok 42, 1, 0, 2⟩ ∧
    retry_on_failure 2 (fun i => (Except.error (toString i) : Except String Nat)) =
      ⟨Except.error "2", 2, 1, 3⟩ := by
  constructor
  · exact (retry_wrapper_spec 2 (fun i => if i < 1 then Except.error "boom" else Except.ok 42)).1
      1 42 (by decide) (fun i hi => ⟨"boom", by
        have : i = 0 := by omega
        rw [this]; rfl⟩) (by rfl)
  · exact (retry_wrapper_spec 2 (fun i => (Except.error (toString i) : Except String Nat))).2
      (fun i => toString i) (fun i _ => rfl)

/-- C9: calling `run` (and hence `fetch_companies`) with a limit of 0
behaves the same as passing no limit at all: because the source tests
the limit for truthiness (`if limit:`) rather than for presence, every
row of the company table is fetched and processed, rather than zero
rows. -/
theorem limit_zero_fetches_all (rows : List Dict) :
    fetch_companies rows (some 0) = rows ∧
    fetch_companies rows (some 0) = fetch_companies rows none ∧
    ∀ (enrichers : List Enricher) (F : Nat) (dbOk : Nat → Bool) (now : Val),
      run_with_limit enrichers F dbOk now rows (some 0) =
        run_with_limit enrichers F dbOk now rows none := by
  refine ⟨rfl, rfl, fun enrichers F dbOk now => rfl⟩

/-- C8: a company lacking a `Ticker` key, or whose ticker value is the
empty string, is ineligible for every enricher variant: each `enrich`
returns an empty mapping, makes zero calls to its external provider,
and does not raise. -/
theorem missing_ticker_skips_providers (company : Dict)
    (h : getVal company "Ticker" = none ∨
      getVal company "Ticker" = some (Val.vstr "")) :
    ∀ (yp : Except String YahooData) (sp : Except String EdgarData)
      (lp : Except String (Option Dict)) (summary now : Val),
      yahoo_enrich yp company = Except.ok ([], 0) ∧
      sec_enrich sp summary now company = Except.ok ([], 0) ∧
      llm_enrich lp now company = Except.ok ([], 0) ∧
      isin_enrich company = Except.ok ([], 0) ∧
      sector_classification_enrich company = Except.ok ([], 0) := by
  have hv : validate_input company = false := by
    unfold validate_input
    rcases h with h | h
    · rw [h]
    · rw [h]; rfl
  intro yp sp lp summary now
  refine ⟨?_, ?_, ?_, ?_, ?_⟩ <;>
    simp [yahoo_enrich, sec_enrich, llm_enrich, isin_enrich,
      sector_classification_enrich, hv]

/-- Witness for C8: a company whose ticker is the empty string is
skipped by all five enrichers. -/
theorem missing_ticker_skips_providers_witness :
    yahoo_enrich (Except.error "e") companyEmptyTicker = Except.ok ([], 0) ∧
    sec_enrich (Except.error "e") (Val.vstr "s") (Val.vstr "t")
      companyEmptyTicker = Except.ok ([], 0) ∧
    llm_enrich (Except.error "e") (Val.vstr "t") companyEmptyTicker =
      Except.ok ([], 0) ∧
    isin_enrich companyEmptyTicker = Except.ok ([], 0) ∧
    sector_classification_enrich companyEmptyTicker = Except.ok ([], 0) :=
  missing_ticker_skips_providers companyEmptyTicker (Or.inr rfl)
    (Except.error "e") (Except.error "e") (Except.error "e")
    (Val.vstr "s") (Val.vstr "t")

/-- Counterexample to C7 as stated: with a store that rejects the
update for ticker "A", `batch_update_companies([updateA, updateB])`
attempts only the "A" update and raises; the "B" update, although it
carries an identity key, is never attempted — the failure of one
update does halt the remaining updates. -/
theorem batch_update_abort_counterexample :
    batch_update_companies dbFailOnA [updateA, updateB] =
      ([(Val.vstr "A", updateA)], Except.error "db down") ∧
    (Val.vstr "B", updateB) ∉ [(Val.vstr "A", updateA)] := by
  refine ⟨rfl, ?_⟩
  intro hmem
  simp only [List.mem_singleton, Prod.mk.injEq, Val.vstr.injEq] at hmem
  exact absurd hmem.1 (by decide)

/-- C7 amended: in `batch_update_companies`, updates lacking an
identity key are silently skipped, and each update carrying one is
attempted in order — but only until the first failure: because
`update_company` re-raises and the loop has no per-item handler, a
failing update propagates its exception out of the batch and the
remaining updates are not attempted. -/
theorem batch_update_first_failure_aborts
    (db : Val → Dict → Except String Unit) :
    (∀ (u : Dict) (rest : List Dict), getVal u "Ticker" = none →
      batch_update_companies db (u :: rest) = batch_update_companies db rest) ∧
    (∀ (l₁ l₂ : List Dict) (u : Dict) (t : Val) (e : String),
      (∀ v ∈ l₁, ∀ tv, getVal v "Ticker" = some tv → db tv v = Except.ok ()) →
      getVal u "Ticker" = some t → db t u = Except.error e →
      batch_update_companies db (l₁ ++ u :: l₂) =
        (l₁.filterMap (fun v => (getVal v "Ticker").map (fun tv => (tv, v)))
          ++ [(t, u)], Except.error e)) := by
  constructor
  · intro u rest hu
    show (match getVal u "Ticker" with
      | none => batch_update_companies db rest
      | some t => match update_company db t u with
        | Except.error e => ([(t, u)], Except.error e)
        | Except.ok _ =>
          let res := batch_update_companies db rest
          ((t, u) :: res.1, res.2)) = batch_update_companies db rest
    rw [hu]
  · intro l₁
    induction l₁ with
    | nil =>
      intro l₂ u t e _ hu hfail
      show (match getVal u "Ticker" with
        | none => batch_update_companies db l₂
        | some t => match update_company db t u with
          | Except.error e => ([(t, u)], Except.error e)
          | Except.ok _ =>
            let res := batch_update_companies db l₂
            ((t, u) :: res.1, res.2)) = ([] ++ [(t, u)], Except.error e)
      rw [hu]
      show (match update_company db t u with
        | Except.error e => ([(t, u)], Except.error e)
        | Except.ok _ =>
          let res := batch_update_companies db l₂
          ((t, u) :: res.1, res.2)) = ([] ++ [(t, u)], Except.error e)
      rw [show update_company db t u = Except.error e from hfail]
      rfl
    | cons v rest ih =>
      intro l₂ u t e hsucc hu hfail
      have hv := hsucc v (List.mem_cons_self v rest)
      have hrest : ∀ w ∈ rest, ∀ tv, getVal w "Ticker" = some tv →
          db tv w = Except.ok () :=
        fun w hw => hsucc w (List.mem_cons_of_mem v hw)
      rw [List.cons_append]
      show (match getVal v "Ticker" with
        | none => batch_update_companies db (rest ++ u :: l₂)
        | some tv => match update_company db tv v with
          | Except.error e2 => ([(tv, v)], Except.error e2)
          | Except.ok _ =>
            let res := batch_update_companies db (rest ++ u :: l₂)
            ((tv, v) :: res.1, res.2)) = _
      cases hvt : getVal v "Ticker" with
      | none =>
        rw [ih l₂ u t e hrest hu hfail]
        simp [List.filterMap_cons, hvt]
      | some tv =>
        show (match update_company db tv v with
          | Except.error e2 => ([(tv, v)], Except.error e2)
          | Except.ok _ =>
            let res := batch_update_companies db (rest ++ u :: l₂)
            ((tv, v) :: res.1, res.2)) = _
        rw [show update_company db tv v = Except.ok () from hv tv hvt]
        show ((tv, v) :: (batch_update_companies db (rest ++ u :: l₂)).1,
          (batch_update_companies db (rest ++ u :: l₂)).2) = _
        rw [ih l₂ u t e hrest hu hfail]
        simp [List.filterMap_cons, hvt]

/-- Witness for C7 amended: with the "B" update succeeding and the
"A" update failing, the batch attempts B then A, raises A's error and
never attempts the trailing update. -/
theorem batch_update_first_failure_aborts_witness :
    batch_update_companies dbFailOnA [updateB, updateA, updateB] =
      ([(Val.vstr "B", updateB), (Val.vstr "A", updateA)],
        Except.error "db down") := by
  have h := (batch_update_first_failure_aborts dbFailOnA).2
    [updateB] [updateB] updateA (Val.vstr "A") "db down"
    (by
      intro v hv tv htv
      simp only [List.mem_singleton] at hv
      subst hv
      have : tv = Val.vstr "B" := by
        have h2 : some (Val.vstr "B") = some tv := htv ▸ rfl
        exact (Option.some.injEq _ _ ▸ h2).symm ▸ rfl
      rw [this]
      rfl)
    rfl rfl
  simpa using h

/-- Counterexample to C6 as stated: `SECFilingsEnricher.enrich` builds
its result without the `None`-cleaning step the other enrichers have —
for a company found in EDGAR with no filings in the lookback window it
returns successfully with `None` values for the four latest-filing
URLs. -/
theorem sec_enrich_returns_null_counterexample :
    sec_enrich (Except.ok edgarApple) (Val.vstr "sum") (Val.vstr "t")
      companyA = Except.ok (secNullDict, 2) ∧
    ("sec_latest_10k", Val.vnull) ∈ secNullDict ∧
    notNull Val.vnull = false := by
  refine ⟨rfl, ?_, rfl⟩
  simp [secNullDict]

/-- C6 amended: each enricher's `enrich`, when it returns successfully,
returns a mapping with no absent/null value — for the Yahoo Finance,
LLM, ISIN and sector-classification enrichers, which either clean
`None` values before returning or return empty mappings; the SEC
filings enricher is the exception: it returns its mapping uncleaned
and can include `None` values. -/
theorem enrichers_drop_nulls (company : Dict) :
    (∀ (yp : Except String YahooData) (d : Dict) (n : Nat),
      yahoo_enrich yp company = Except.ok (d, n) →
      ∀ p ∈ d, notNull p.2 = true) ∧
    (∀ (lp : Except String (Option Dict)) (now : Val) (d : Dict) (n : Nat),
      llm_enrich lp now company = Except.ok (d, n) →
      ∀ p ∈ d, notNull p.2 = true) ∧
    (∀ (d : Dict) (n : Nat), isin_enrich company = Except.ok (d, n) →
      ∀ p ∈ d, notNull p.2 = true) ∧
    (∀ (d : Dict) (n : Nat),
      sector_classification_enrich company = Except.ok (d, n) →
      ∀ p ∈ d, notNull p.2 = true) := by
  refine ⟨?_, ?_, ?_, ?_⟩
  · intro yp d n h p hp
    unfold yahoo_enrich at h
    split at h
    · simp only [Except.ok.injEq, Prod.mk.injEq] at h
      rw [← h.1] at hp
      exact absurd hp (List.not_mem_nil p)
    · split at h
      · exact absurd h (by simp)
      · simp only [Except.ok.injEq, Prod.mk.injEq] at h
        rw [← h.1] at hp
        exact (List.mem_filter.mp hp).2
  · intro lp now d n h p hp
    unfold llm_enrich at h
    split at h
    · simp only [Except.ok.injEq, Prod.mk.injEq] at h
      rw [← h.1] at hp
      exact absurd hp (List.not_mem_nil p)
    · split at h
      · exact absurd h (by simp)
      · simp only [Except.ok.injEq, Prod.mk.injEq] at h
        rw [← h.1] at hp
        exact absurd hp (List.not_mem_nil p)
      · split at h
        · simp only [Except.ok.injEq, Prod.mk.injEq] at h
          rw [← h.1] at hp
          exact absurd hp (List.not_mem_nil p)
        · split at h
          · exact absurd h (by simp)
          · simp only [Except.ok.injEq, Prod.mk.injEq] at h
            rw [← h.1] at hp
            exact (List.mem_filter.mp hp).2
  · intro d n h p hp
    unfold isin_enrich at h
    split at h <;>
      (simp only [Except.ok.injEq, Prod.mk.injEq] at h
       rw [← h.1] at hp
       exact absurd hp (List.not_mem_nil p))
  · intro d n h p hp
    unfold sector_classification_enrich at h
    split at h <;>
      (simp only [Except.ok.injEq, Prod.mk.injEq] at h
       rw [← h.1] at hp
       exact absurd hp (List.not_mem_nil p))

/-- Witness for C6 amended: the Yahoo enricher on a provider
observation with only the market cap present returns exactly the one
non-`None` field, and that field's value passes the `None` filter. -/
theorem enrichers_drop_nulls_witness :
    yahoo_enrich (Except.ok yahooDataApple) companyA =
      Except.ok ([("Market Cap", Val.vint 5)], 2) ∧
    notNull (("Market Cap", Val.vint 5)).2 = true := by
  refine ⟨rfl, ?_⟩
  exact (enrichers_drop_nulls companyA).1 (Except.ok yahooDataApple)
    [("Market Cap", Val.vint 5)] 2 rfl ("Market Cap", Val.vint 5)
    (List.mem_singleton.mpr rfl)

/-- Counterexample to C4 as stated: run the pipeline with one
always-succeeding enricher, `save_frequency = 1`, and a store whose
first batch update raises while later ones succeed.  The first
company's entry is buffered, its flush fails — and because
`_save_buffer` clears the buffer only after a successful
`batch_update_companies` call, the entry is still in the buffer and is
written by the next (successful) flush, rather than being dropped. -/
theorem flush_failure_drop_counterexample :
    (run [constEnricher] 1 dbFailFirst (Val.vstr "t")
      [companyA, companyB]).batchCalls =
      [([entryA], false), ([entryA, entryB], true)] ∧
    entryA ∈ [entryA, entryB] := by
  exact ⟨rfl, List.mem_cons_self entryA [entryB]⟩

/-- C4 amended: when a flush of the results buffer fails (the
batch-update raises), the error is logged and the buffer is NOT
cleared: the buffered entries remain in the buffer, and any later
flush of a state still carrying them re-attempts all of them in its
batch-update call — they are retried, not dropped. -/
theorem save_buffer_failure_retains (dbOk : Nat → Bool) (s : RunState)
    (hne : s.buffer ≠ [])
    (hfail : dbOk s.batchCalls.length = false) :
    (save_buffer dbOk s).buffer = s.buffer ∧
    (save_buffer dbOk s).flushErrors = s.flushErrors + 1 ∧
    (save_buffer dbOk s).batchCalls = s.batchCalls ++ [(s.buffer, false)] ∧
    ∀ (dbOk2 : Nat → Bool) (s2 : RunState) (extra : List Dict),
      s2.buffer = s.buffer ++ extra →
      (save_buffer dbOk2 s2).batchCalls =
        s2.batchCalls ++ [(s.buffer ++ extra, dbOk2 s2.batchCalls.length)] := by
  have hie : s.buffer.isEmpty = false := by
    cases h : s.buffer with
    | nil => exact absurd h hne
    | cons a l => rfl
  refine ⟨?_, ?_, ?_, ?_⟩
  · unfold save_buffer
    rw [hie, hfail]
    rfl
  · unfold save_buffer
    rw [hie, hfail]
    rfl
  · unfold save_buffer
    rw [hie, hfail]
    rfl
  · intro dbOk2 s2 extra hb
    have hie2 : s2.buffer.isEmpty = false := by
      rw [hb]
      cases h : s.buffer with
      | nil => exact absurd h hne
      | cons a l => rfl
    unfold save_buffer
    rw [hie2]
    cases h2 : dbOk2 s2.batchCalls.length
    · rw [hb]; simp
    · rw [hb]; simp

/-- Witness for C4 amended: a failing flush of a one-entry buffer
leaves the entry buffered, logs one flush error and records the
failed batch call. -/
theorem save_buffer_failure_retains_witness :
    (save_buffer dbFailFirst ⟨[entryA], [], 0, [], 1⟩).buffer = [entryA] ∧
    (save_buffer dbFailFirst ⟨[entryA], [], 0, [], 1⟩).flushErrors = 1 ∧
    (save_buffer dbFailFirst ⟨[entryA], [], 0, [], 1⟩).batchCalls =
      [([entryA], false)] := by
  have h := save_buffer_failure_retains dbFailFirst ⟨[entryA], [], 0, [], 1⟩
    (List.cons_ne_nil entryA []) rfl
  exact ⟨h.1, h.2.1, h.2.2.1⟩

theorem enrichStep_fold_no_key (c : Dict) (X : String) :
    ∀ (l : List Enricher) (start : Dict × List EnricherWarning),
      (∀ f ∈ l, (∃ e, f.enrich c = Except.error e) ∨
        (∃ r, f.enrich c = Except.ok r ∧ X ∉ dictKeys r)) →
      getVal (List.foldl (enrichStep c) start l).1 X = getVal start.1 X := by
  intro l
  induction l with
  | nil => intro start _; rfl
  | cons f rest ih =>
    intro start hall
    rw [List.foldl_cons,
      ih (enrichStep c start f) (fun g hg => hall g (List.mem_cons_of_mem f hg))]
    rcases hall f (List.mem_cons_self f rest) with ⟨e, he⟩ | ⟨r, hr, hX⟩
    · unfold enrichStep
      rw [he]
    · unfold enrichStep
      rw [hr]
      exact getVal_dictUpdate_of_not_mem r X hX start.1

/-- C3: last-writer-wins merge.  For every company `c` and every
enricher `mid` of the enabled order that successfully produces a
value for field `X`, if every enricher after `mid` either fails or
does not produce `X`, the aggregate mapping built by
`_enrich_company` carries `mid`'s value for `X` — so whenever two
enrichers both produce `X`, the later one in the fixed enabled order
wins. -/
theorem merge_last_writer_wins (l₁ l₂ : List Enricher) (mid : Enricher)
    (c R : Dict) (X : String)
    (hok : mid.enrich c = Except.ok R)
    (hnd : (dictKeys R).Nodup)
    (hX : X ∈ dictKeys R)
    (hlater : ∀ f ∈ l₂, (∃ e, f.enrich c = Except.error e) ∨
      (∃ r, f.enrich c = Except.ok r ∧ X ∉ dictKeys r)) :
    getVal (enrich_company (l₁ ++ mid :: l₂) c).1 X = getVal R X := by
  unfold enrich_company
  rw [List.foldl_append, List.foldl_cons,
    enrichStep_fold_no_key c X l₂ _ hlater]
  unfold enrichStep
  rw [hok]
  exact getVal_dictUpdate_of_mem R X hnd hX _

/-- Witness for C3: two enrichers both producing field `"x"` — the
aggregate ends with the second enricher's value. -/
theorem merge_last_writer_wins_witness :
    getVal (enrich_company [constEnricher, constEnricher2] companyA).1 "x" =
      some (Val.vint 2) := by
  have h := merge_last_writer_wins [constEnricher] [] constEnricher2
    companyA [("x", Val.vint 2)] "x" rfl (by decide) (by decide)
    (fun f hf => absurd hf (List.not_mem_nil f))
  exact h

theorem enrichStep_fold_fst (c : Dict) :
    ∀ (l : List Enricher) (d : Dict) (ws ws2 : List EnricherWarning),
      (List.foldl (enrichStep c) (d, ws) l).1 =
        (List.foldl (enrichStep c) (d, ws2) l).1 := by
  intro l
  induction l with
  | nil => intro d ws ws2; rfl
  | cons f rest ih =>
    intro d ws ws2
    rw [List.foldl_cons, List.foldl_cons]
    cases hf : f.enrich c with
    | ok r =>
      have e1 : enrichStep c (d, ws) f = (dictUpdate d r, ws) := by
        unfold enrichStep; rw [hf]
      have e2 : enrichStep c (d, ws2) f = (dictUpdate d r, ws2) := by
        unfold enrichStep; rw [hf]
      rw [e1, e2]
      exact ih (dictUpdate d r) ws ws2
    | error e =>
      have e1 : enrichStep c (d, ws) f =
          (d, ws ++ [⟨f.name, getVal c "Ticker", e⟩]) := by
        unfold enrichStep; rw [hf]
      have e2 : enrichStep c (d, ws2) f =
          (d, ws2 ++ [⟨f.name, getVal c "Ticker", e⟩]) := by
        unfold enrichStep; rw [hf]
      rw [e1, e2]
      exact ih d _ _

theorem enrichStep_fold_warnings (c : Dict) :
    ∀ (l : List Enricher) (d : Dict) (ws : List EnricherWarning),
      ∃ tail, (List.foldl (enrichStep c) (d, ws) l).2 = ws ++ tail := by
  intro l
  induction l with
  | nil => intro d ws; exact ⟨[], (List.append_nil ws).symm⟩
  | cons f rest ih =>
    intro d ws
    rw [List.foldl_cons]
    cases hf : f.enrich c with
    | ok r =>
      have e1 : enrichStep c (d, ws) f = (dictUpdate d r, ws) := by
        unfold enrichStep; rw [hf]
      rw [e1]
      exact ih (dictUpdate d r) ws
    | error e =>
      have e1 : enrichStep c (d, ws) f =
          (d, ws ++ [⟨f.name, getVal c "Ticker", e⟩]) := by
        unfold enrichStep; rw [hf]
      rw [e1]
      obtain ⟨tail, ht⟩ := ih d (ws ++ [⟨f.name, getVal c "Ticker", e⟩])
      exact ⟨⟨f.name, getVal c "Ticker", e⟩ :: tail,
        by rw [ht, List.append_assoc]; rfl⟩

theorem save_buffer_processed (dbOk : Nat → Bool) (s : RunState) :
    (save_buffer dbOk s).processed = s.processed := by
  unfold save_buffer
  split_ifs <;> rfl

theorem process_company_processed (es : List Enricher) (F : Nat)
    (dbOk : Nat → Bool) (now : Val) (s : RunState) (c : Dict) :
    (process_company es F dbOk now s c).processed = s.processed + 1 := by
  simp only [process_company]
  split_ifs <;> simp [save_buffer_processed]

theorem runLoop_processed (es : List Enricher) (F : Nat) (dbOk : Nat → Bool)
    (now : Val) :
    ∀ (cs : List Dict) (s : RunState),
      (runLoop es F dbOk now s cs).processed = s.processed + cs.length := by
  intro cs
  induction cs with
  | nil => intro s; rfl
  | cons c rest ih =>
    intro s
    show (runLoop es F dbOk now
      (process_company es F dbOk now s c) rest).processed = _
    rw [ih (process_company es F dbOk now s c), process_company_processed]
    simp only [List.length_cons]
    omega

theorem run_processed (es : List Enricher) (F : Nat) (dbOk : Nat → Bool)
    (now : Val) (companies : List Dict) :
    (run es F dbOk now companies).processed = companies.length := by
  simp only [run]
  split_ifs with h
  · rw [runLoop_processed]
    simp [initState]
  · rw [save_buffer_processed, runLoop_processed]
    simp [initState]

/-- C5: enricher-failure isolation.  If one enricher raises for a
company (after its internal retries), `_enrich_company` catches it and
records a warning tagged with that enricher's name and the company's
ticker; the aggregate of the remaining enrichers is exactly what it
would be without the failing enricher (so their results are still
merged and buffered); and `run` still processes every company. -/
theorem enricher_failure_isolated (l₁ l₂ : List Enricher) (bad : Enricher)
    (c : Dict) (msg : String)
    (hbad : bad.enrich c = Except.error msg) :
    (⟨bad.name, getVal c "Ticker", msg⟩ : EnricherWarning) ∈
      (enrich_company (l₁ ++ bad :: l₂) c).2 ∧
    (enrich_company (l₁ ++ bad :: l₂) c).1 =
      (enrich_company (l₁ ++ l₂) c).1 ∧
    ∀ (F : Nat) (dbOk : Nat → Bool) (now : Val) (companies : List Dict),
      (run (l₁ ++ bad :: l₂) F dbOk now companies).processed =
        companies.length := by
  have hstep : enrichStep c (List.foldl (enrichStep c) ([], []) l₁) bad =
      ((List.foldl (enrichStep c) ([], []) l₁).1,
       (List.foldl (enrichStep c) ([], []) l₁).2 ++
         [⟨bad.name, getVal c "Ticker", msg⟩]) := by
    unfold enrichStep
    rw [hbad]
  refine ⟨?_, ?_, ?_⟩
  · unfold enrich_company
    rw [List.foldl_append, List.foldl_cons, hstep]
    obtain ⟨tail, ht⟩ := enrichStep_fold_warnings c l₂
      (List.foldl (enrichStep c) ([], []) l₁).1
      ((List.foldl (enrichStep c) ([], []) l₁).2 ++
        [⟨bad.name, getVal c "Ticker", msg⟩])
    rw [ht]
    simp
  · unfold enrich_company
    rw [List.foldl_append, List.foldl_append, List.foldl_cons, hstep]
    exact enrichStep_fold_fst c l₂ (List.foldl (enrichStep c) ([], []) l₁).1
      ((List.foldl (enrichStep c) ([], []) l₁).2 ++
        [⟨bad.name, getVal c "Ticker", msg⟩])
      (List.foldl (enrichStep c) ([], []) l₁).2
  · intro F dbOk now companies
    exact run_processed (l₁ ++ bad :: l₂) F dbOk now companies

/-- Witness for C5: between two succeeding enrichers, a failing one is
logged with its name and the company's ticker, the aggregate equals
the one built without it, and a two-company run reports 2 processed. -/
theorem enricher_failure_isolated_witness :
    (⟨"FailEnricher", some (Val.vstr "AAPL"), "provider down"⟩ :
      EnricherWarning) ∈
      (enrich_company [constEnricher, failEnricher, constEnricher2]
        companyA).2 ∧
    (enrich_company [constEnricher, failEnricher, constEnricher2]
      companyA).1 =
      (enrich_company [constEnricher, constEnricher2] companyA).1 ∧
    (run [constEnricher, failEnricher, constEnricher2] 5 (fun _ => true)
      (Val.vstr "t") [companyA, companyB]).processed = 2 := by
  have h := enricher_failure_isolated [constEnricher] [constEnricher2]
    failEnricher companyA "provider down" rfl
  exact ⟨h.1, h.2.1, h.2.2 5 (fun _ => true) (Val.vstr "t")
    [companyA, companyB]⟩

theorem enrichStep_fold_all_fail (c : Dict) :
    ∀ (l : List Enricher), (∀ f ∈ l, ∃ m, f.enrich c = Except.error m) →
      ∀ (d : Dict) (ws : List EnricherWarning),
        (List.foldl (enrichStep c) (d, ws) l).1 = d := by
  intro l
  induction l with
  | nil => intro _ d ws; rfl
  | cons f rest ih =>
    intro hall d ws
    obtain ⟨m, hm⟩ := hall f (List.mem_cons_self f rest)
    rw [List.foldl_cons]
    have e1 : enrichStep c (d, ws) f =
        (d, ws ++ [⟨f.name, getVal c "Ticker", m⟩]) := by
      unfold enrichStep; rw [hm]
    rw [e1]
    exact ih (fun g hg => hall g (List.mem_cons_of_mem f hg)) d _

theorem process_company_no_data (es : List Enricher) (F : Nat)
    (dbOk : Nat → Bool) (now : Val) (s : RunState) (c : Dict)
    (hc : (enrich_company es c).1 = []) (hs : s.buffer = []) :
    process_company es F dbOk now s c =
      { s with warnings := s.warnings ++ (enrich_company es c).2,
               processed := s.processed + 1 } := by
  simp only [process_company, hc, List.isEmpty_nil, if_true]
  have hbuf : ({ s with warnings := s.warnings ++ (enrich_company es c).2 } :
      RunState).buffer = [] := hs
  split_ifs with h
  · unfold save_buffer
    rw [hbuf]
    rfl
  · rfl

theorem runLoop_no_results (es : List Enricher) (F : Nat) (dbOk : Nat → Bool)
    (now : Val) :
    ∀ (cs : List Dict), (∀ c ∈ cs, (enrich_company es c).1 = []) →
      ∀ s : RunState, s.buffer = [] →
        (runLoop es F dbOk now s cs).buffer = [] ∧
        (runLoop es F dbOk now s cs).batchCalls = s.batchCalls := by
  intro cs
  induction cs with
  | nil => intro _ s hs; exact ⟨hs, rfl⟩
  | cons c rest ih =>
    intro hall s hs
    show (runLoop es F dbOk now
        (process_company es F dbOk now s c) rest).buffer = [] ∧
      (runLoop es F dbOk now
        (process_company es F dbOk now s c) rest).batchCalls = s.batchCalls
    rw [process_company_no_data es F dbOk now s c
      (hall c (List.mem_cons_self c rest)) hs]
    exact ih (fun g hg => hall g (List.mem_cons_of_mem c hg)) _ hs

/-- C10: a company is counted as successfully processed whenever its
per-company step completes without an escaping exception — which in
particular happens when every enabled enricher fails for it (the
failures are caught inside `_enrich_company`).  A run in which all
provider calls fail therefore still reports `total/total` companies
processed, and performs no batch update at all. -/
theorem all_enrichers_fail_still_processed (es : List Enricher)
    (F : Nat) (dbOk : Nat → Bool) (now : Val) (companies : List Dict)
    (hfail : ∀ f ∈ es, ∀ c ∈ companies, ∃ m, f.enrich c = Except.error m) :
    (run es F dbOk now companies).processed = companies.length ∧
    (run es F dbOk now companies).batchCalls = [] := by
  have hdata : ∀ c ∈ companies, (enrich_company es c).1 = [] := by
    intro c hc
    unfold enrich_company
    exact enrichStep_fold_all_fail c es (fun f hf => hfail f hf c hc) [] []
  have hloop := runLoop_no_results es F dbOk now companies hdata initState rfl
  refine ⟨run_processed es F dbOk now companies, ?_⟩
  simp only [run]
  rw [show (runLoop es F dbOk now initState companies).buffer.isEmpty = true by
    rw [hloop.1]; rfl]
  simp only [if_true]
  rw [hloop.2]
  rfl

/-- Witness for C10: a two-company run with a single always-failing
enricher reports 2/2 processed and never calls the database. -/
theorem all_enrichers_fail_still_processed_witness :
    (run [failEnricher] 5 (fun _ => true) (Val.vstr "t")
      [companyA, companyB]).processed = 2 ∧
    (run [failEnricher] 5 (fun _ => true) (Val.vstr "t")
      [companyA, companyB]).batchCalls = [] := by
  have h := all_enrichers_fail_still_processed [failEnricher] 5
    (fun _ => true) (Val.vstr "t") [companyA, companyB]
    (by
      intro f hf c hc
      simp only [List.mem_singleton] at hf
      subst hf
      exact ⟨"provider down", rfl⟩)
  exact h

theorem isEmpty_append_singleton (l : List Dict) (x : Dict) :
    (l ++ [x]).isEmpty = false := by
  cases l <;> rfl

theorem process_company_nonempty (es : List Enricher) (F : Nat)
    (dbOk : Nat → Bool) (now : Val) (s : RunState) (c : Dict)
    (hc : (enrich_company es c).1 ≠ [])
    (hdb : ∀ n, dbOk n = true) :
    (F ≤ s.buffer.length + 1 →
      (process_company es F dbOk now s c).buffer = [] ∧
      (process_company es F dbOk now s c).batchCalls.length =
        s.batchCalls.length + 1) ∧
    (¬ F ≤ s.buffer.length + 1 →
      (process_company es F dbOk now s c).buffer =
        s.buffer ++ [setVal (setVal (enrich_company es c).1 "Ticker"
          ((getVal c "Ticker").getD (Val.vstr "Unknown"))) "last_enriched" now] ∧
      (process_company es F dbOk now s c).batchCalls.length =
        s.batchCalls.length) := by
  have hie : (enrich_company es c).1.isEmpty = false := by
    cases h : (enrich_company es c).1 with
    | nil => exact absurd h hc
    | cons a l => rfl
  constructor
  · intro h
    have h2 : F ≤ (s.buffer ++ [setVal (setVal (enrich_company es c).1
        "Ticker" ((getVal c "Ticker").getD (Val.vstr "Unknown")))
        "last_enriched" now]).length := by
      rw [List.length_append]
      simpa using h
    simp [process_company, save_buffer, hie, hdb, isEmpty_append_singleton,
      h2, h]
  · intro h
    have h2 : ¬ F ≤ (s.buffer ++ [setVal (setVal (enrich_company es c).1
        "Ticker" ((getVal c "Ticker").getD (Val.vstr "Unknown")))
        "last_enriched" now]).length := by
      rw [List.length_append]
      simpa using h
    simp [process_company, hie, h2, h]

theorem runLoop_buffer_arith (es : List Enricher) (F : Nat)
    (dbOk : Nat → Bool) (now : Val) (hF : 1 ≤ F) (hdb : ∀ n, dbOk n = true) :
    ∀ (cs : List Dict), (∀ c ∈ cs, (enrich_company es c).1 ≠ []) →
      ∀ s : RunState, s.buffer.length < F →
        (runLoop es F dbOk now s cs).buffer.length =
          (s.buffer.length + cs.length) % F ∧
        (runLoop es F dbOk now s cs).batchCalls.length =
          s.batchCalls.length + (s.buffer.length + cs.length) / F := by
  intro cs
  induction cs with
  | nil =>
    intro _ s hs
    constructor
    · simp [runLoop, Nat.mod_eq_of_lt hs]
    · simp [runLoop, Nat.div_eq_of_lt hs]
  | cons c rest ih =>
    intro hall s hs
    have hc := hall c (List.mem_cons_self c rest)
    have hpc := process_company_nonempty es F dbOk now s c hc hdb
    have hrest : ∀ g ∈ rest, (enrich_company es g).1 ≠ [] :=
      fun g hg => hall g (List.mem_cons_of_mem c hg)
    simp only [List.length_cons]
    show (runLoop es F dbOk now
        (process_company es F dbOk now s c) rest).buffer.length = _ ∧
      (runLoop es F dbOk now
        (process_company es F dbOk now s c) rest).batchCalls.length = _
    by_cases hflush : F ≤ s.buffer.length + 1
    · obtain ⟨hb, hbc⟩ := hpc.1 hflush
      have hF1 : s.buffer.length + 1 = F := by omega
      have h0 : (process_company es F dbOk now s c).buffer.length = 0 := by
        rw [hb]; rfl
      have ihs := ih hrest (process_company es F dbOk now s c)
        (by rw [h0]; omega)
      constructor
      · rw [ihs.1, h0]
        have he : s.buffer.length + (rest.length + 1) = rest.length + F := by
          omega
        rw [he, Nat.zero_add, Nat.add_mod_right]
      · rw [ihs.2, hbc, h0]
        have he : s.buffer.length + (rest.length + 1) = rest.length + F := by
          omega
        rw [he, Nat.zero_add, Nat.add_div_right rest.length (by omega : 0 < F)]
        omega
    · obtain ⟨hb, hbc⟩ := hpc.2 hflush
      have h1 : (process_company es F dbOk now s c).buffer.length =
          s.buffer.length + 1 := by
        rw [hb, List.length_append]
        rfl
      have ihs := ih hrest (process_company es F dbOk now s c)
        (by rw [h1]; omega)
      constructor
      · rw [ihs.1, h1]
        have he : s.buffer.length + 1 + rest.length =
            s.buffer.length + (rest.length + 1) := by omega
        rw [he]
      · rw [ihs.2, hbc, h1]
        have he : s.buffer.length + 1 + rest.length =
            s.buffer.length + (rest.length + 1) := by omega
        rw [he]

/-- C2: buffer flushing in the run loop.  With every company producing
a non-empty result and the store healthy: appending exactly
`save_frequency` results triggers exactly one flush (one batch-update
call) that empties the buffer; appending `save_frequency - 1` results
triggers none; and at every point of the loop the buffer holds fewer
than `save_frequency` entries after the iteration's flush check (so
its length never exceeds `save_frequency`: the flush fires immediately
when the threshold is reached). -/
theorem buffer_flush_spec (es : List Enricher) (F : Nat) (dbOk : Nat → Bool)
    (now : Val) (companies : List Dict)
    (hF : 1 ≤ F) (hdb : ∀ n, dbOk n = true)
    (hall : ∀ c ∈ companies, (enrich_company es c).1 ≠ []) :
    (companies.length = F →
      (runLoop es F dbOk now initState companies).batchCalls.length = 1 ∧
      (runLoop es F dbOk now initState companies).buffer = []) ∧
    (companies.length = F - 1 →
      (runLoop es F dbOk now initState companies).batchCalls.length = 0) ∧
    (∀ p q : List Dict, companies = p ++ q →
      (runLoop es F dbOk now initState p).buffer.length ≤ F) := by
  have hinit : (initState.buffer).length < F := by
    show ([] : List Dict).length < F
    simpa using hF
  have harith := runLoop_buffer_arith es F dbOk now hF hdb companies hall
    initState hinit
  refine ⟨?_, ?_, ?_⟩
  · intro hlen
    rw [hlen] at harith
    constructor
    · rw [harith.2]
      show ([] : List (List Dict × Bool)).length + (0 + F) / F = 1
      rw [Nat.zero_add, Nat.div_self (by omega : 0 < F)]
      rfl
    · have hb := harith.1
      rw [show (initState.buffer.length + F) % F = 0 by
        show (([] : List Dict).length + F) % F = 0
        simp [Nat.add_mod_right]] at hb
      exact List.length_eq_zero.mp hb
  · intro hlen
    rw [hlen] at harith
    rw [harith.2]
    show ([] : List (List Dict × Bool)).length + (0 + (F - 1)) / F = 0
    rw [Nat.zero_add, Nat.div_eq_of_lt (by omega : F - 1 < F)]
    rfl
  · intro p q hpq
    have hp : ∀ c ∈ p, (enrich_company es c).1 ≠ [] := by
      intro g hg
      exact hall g (hpq ▸ List.mem_append_left q hg)
    have h := runLoop_buffer_arith es F dbOk now hF hdb p hp initState hinit
    rw [h.1]
    exact Nat.le_of_lt (Nat.mod_lt _ (by omega))

/-- Witness for C2: with `save_frequency = 2` and a healthy store, two
companies produce exactly one flush that empties the buffer; the
one-company prefix stays within the threshold. -/
theorem buffer_flush_spec_witness :
    (runLoop [constEnricher] 2 (fun _ => true) (Val.vstr "t") initState
      [companyA, companyB]).batchCalls.length = 1 ∧
    (runLoop [constEnricher] 2 (fun _ => true) (Val.vstr "t") initState
      [companyA, companyB]).buffer = [] ∧
    (runLoop [constEnricher] 2 (fun _ => true) (Val.vstr "t") initState
      [companyA]).buffer.length ≤ 2 := by
  have h := buffer_flush_spec [constEnricher] 2 (fun _ => true)
    (Val.vstr "t") [companyA, companyB] (by omega) (fun n => rfl)
    (by
      intro c hc
      intro hempty
      exact List.cons_ne_nil ("x", Val.vint 1) [] hempty)
  exact ⟨(h.1 rfl).1, (h.1 rfl).2, h.2.2 [companyA] [companyB] rfl⟩

end EquityPipeline
